import Mathlib

/-!
Shallow embedding of the QRS / ECG event detection code of
`mne/preprocessing/ecg.py` (functions `qrs_detector`, `find_ecg_events` and
`_ecg_segment_window`), together with proofs about the claims of the
specification.

Modelling conventions:
* Signal amplitudes, sampling rates and threshold fractions are modelled
  exactly over `ℚ`; the single irrational operation of the source,
  `np.sqrt`, is applied over `ℝ` via `Real.sqrt`.
* The per-candidate scan loop (source lines 92-104) is written with a fuel
  argument equal to the signal length; the scan position strictly increases
  at every iteration, so this fuel is never exhausted when the window size
  is positive (for window size 0 the Python loop itself does not terminate).
* The external band-pass filter collaborator (`filter_data`) is not part of
  the repository under verification; following the specification it is a
  length-preserving pure function, so the `sig` arguments below stand for
  the already-filtered signal.
-/

namespace EcgModel

/-- Python 3 `round` on an exact value: round half to even. -/
def pyRound (q : ℚ) : ℤ :=
  if q - ⌊q⌋ < 1/2 then ⌊q⌋
  else if 1/2 < q - ⌊q⌋ then ⌈q⌉
  else if Even ⌊q⌋ then ⌊q⌋ else ⌈q⌉

/-- Python `int(...)` applied to a number: truncation toward zero. -/
def pyTrunc (q : ℚ) : ℤ := if 0 ≤ q then ⌊q⌋ else ⌈q⌉

/-- Model of `np.arange start stop step` for a positive step. -/
def npArange (start stop step : ℚ) : List ℚ :=
  (List.range (⌈(stop - start) / step⌉).toNat).map (fun k => start + k * step)

/-- Model of `np.max` (empty input is a caller error in numpy; we default to 0). -/
def npMax (l : List ℚ) : ℚ := (l.max?).getD 0

/-- Model of `np.mean` over `ℚ`. -/
def npMeanQ (l : List ℚ) : ℚ := l.sum / l.length

/-- Model of `np.argmax`: index of the first occurrence of the maximum value. -/
def argmaxFirst : List ℚ → ℕ
  | [] => 0
  | x :: xs => if xs ≠ [] ∧ x < xs.getD (argmaxFirst xs) 0 then argmaxFirst xs + 1 else 0

/-- Model of `np.argmin`: index of the first occurrence of the minimum value. -/
def npArgmin : List ℚ → ℕ
  | [] => 0
  | x :: xs => if xs ≠ [] ∧ xs.getD (npArgmin xs) 0 < x then npArgmin xs + 1 else 0

/-- Ascending insertion, used to model `np.sort`. -/
def insertAsc (x : ℚ) : List ℚ → List ℚ
  | [] => [x]
  | y :: ys => if x ≤ y then x :: y :: ys else y :: insertAsc x ys

/-- Model of `np.sort` (ascending). -/
def npSort (l : List ℚ) : List ℚ := l.foldr insertAsc []

/-- Model of `np.median`: middle element of the sorted list, or the mean of the two
middle elements for even length. -/
def npMedian (l : List ℚ) : ℚ :=
  let s := npSort l
  if s.length % 2 = 1 then s.getD (s.length / 2) 0
  else (s.getD (s.length / 2 - 1) 0 + s.getD (s.length / 2) 0) / 2

/-- Model of `mne.utils.sum_squared`: sum of the squared entries. -/
def sum_squared (l : List ℚ) : ℚ := (l.map (fun x => x ^ 2)).sum

/-- Model of `(window > thresh).astype(int)`: the binary above-threshold mask of a
window (source line 98). -/
def maskAbove (l : List ℚ) (t : ℚ) : List ℤ := l.map (fun x => if t < x then 1 else 0)

/-- Model of `np.diff`: successive differences. -/
def npDiff (l : List ℤ) : List ℤ := (l.zip l.tail).map (fun p => p.2 - p.1)

/-- The crossing statistic recorded by source lines 98-100:
`np.sum(np.diff(((window > thresh1).astype(np.int64) == 1).astype(int)))`. -/
def numcrossOf (window : List ℚ) (t : ℚ) : ℤ := (npDiff (maskAbove window t)).sum

/-- Number of rising edges (transitions from 0 to 1) of a binary mask;
this is the quantity the specification describes as the crossing count. -/
def risingEdges (m : List ℤ) : ℕ :=
  ((m.zip m.tail).filter (fun p => decide (p.1 = 0 ∧ p.2 = 1))).length

/-- Number of falling edges (transitions from 1 to 0) of a binary mask. -/
def fallingEdges (m : List ℤ) : ℕ :=
  ((m.zip m.tail).filter (fun p => decide (p.1 = 1 ∧ p.2 = 0))).length

/-- The per-candidate scan of source lines 92-104.  Returns the candidate
peak indices (`time`), the crossing statistics (`numcross`) and the window
mean squares; the `rms` list of the source is `Real.sqrt` of the latter,
taken outside the scan (see `rmsOf`) so that the scan stays computable.
The fuel argument (first `ℕ`) bounds the number of loop iterations. -/
def scanAux (sig : List ℚ) (th : ℚ) (w : ℕ) : ℕ → ℕ → List ℕ × List ℤ × List ℚ
  | 0, _ => ([], [], [])
  | fuel + 1, ii =>
    if ii < sig.length - w then
      let window := (sig.drop ii).take w
      if th < window.headD 0 then
        let rest := scanAux sig th w fuel (ii + w)
        ((ii + argmaxFirst window) :: rest.1,
         numcrossOf window th :: rest.2.1,
         sum_squared window / (window.length : ℚ) :: rest.2.2)
      else scanAux sig th w fuel (ii + 1)
    else ([], [], [])

/-- The scan started at position 0 with fuel `sig.length` (sufficient for
every positive window size, since the position strictly increases). -/
def scanQ (sig : List ℚ) (th : ℚ) (w : ℕ) : List ℕ × List ℤ × List ℚ :=
  scanAux sig th w sig.length 0

/-- Source lines 106-108: when no peak was found, a sentinel entry 0.0 is
appended to `rms` and to `time` (`numcross` is left untouched). -/
def runCandidateQ (sig : List ℚ) (th : ℚ) (w : ℕ) : List ℕ × List ℤ × List ℚ :=
  let r := scanQ sig th w
  if r.2.2 = [] then ([0], r.2.1, [0]) else r

/-- The per-window RMS values of source line 101: square roots of the
window mean squares. -/
noncomputable def rmsOf (msq : List ℚ) : List ℝ :=
  msq.map (fun q : ℚ => Real.sqrt (q : ℝ))

/-- Model of `np.mean` over `ℝ`. -/
noncomputable def npMeanR (l : List ℝ) : ℝ := l.sum / l.length

/-- Model of `np.std`: population standard deviation. -/
noncomputable def npStdR (l : List ℝ) : ℝ :=
  Real.sqrt (npMeanR (l.map (fun x => (x - npMeanR l) ^ 2)))

open scoped Classical in
/-- Source lines 109-117: outlier rejection.
`b = np.where(rms < rms_thresh)[0]`, `a = np.array(numcross)[b]`,
`ce = time[b[a < n_thresh]]`, `ce += n_samples_start`. -/
noncomputable def cleanStage (time : List ℕ) (numcross : List ℤ) (rms : List ℝ)
    (levels : ℚ) (nthresh : ℤ) (off : ℕ) : List ℕ :=
  let rmsThresh := npMeanR rms + npStdR rms * (levels : ℝ)
  let b := (List.range rms.length).filter (fun i => decide (rms.getD i 0 < rmsThresh))
  let a := b.map (fun i => numcross.getD i 0)
  let ce := ((b.zip a).filter (fun p => decide (p.2 < nthresh))).map (fun p => p.1)
  (ce.map (fun i => time.getD i 0)).map (fun t => t + off)

/-- One full per-candidate computation (source lines 88-117): scan,
sentinel substitution, outlier rejection, shift by the start offset. -/
noncomputable def candidateEvents (sig : List ℚ) (th : ℚ) (w : ℕ)
    (levels : ℚ) (nthresh : ℤ) (off : ℕ) : List ℕ :=
  let r := runCandidateQ sig th w
  cleanStage r.1 r.2.1 (rmsOf r.2.2) levels nthresh off

/-- The `thresh_value` parameter: a Python string or a number. -/
inductive ThreshSpec where
  | str (s : String)
  | num (q : ℚ)

/-- Source lines 78-83: the candidate threshold fractions, or the
configuration error for a string other than "auto". -/
def threshRuns : ThreshSpec → Except String (List ℚ)
  | .str s =>
      if s = "auto" then .ok (npArange (3/10) (11/10) (1/20))
      else .error "threshold value must be auto or a float"
  | .num q => .ok [q]

/-- Source line 57: `win_size = int(round((60.0 * sfreq) / 120.0))`. -/
def winSizeOf (sfreq : ℚ) : ℕ := (pyRound (60 * sfreq / 120)).toNat

/-- Source line 64: `init = int(sfreq)`. -/
def initOf (sfreq : ℚ) : ℤ := pyTrunc sfreq

/-- Source line 66: `n_samples_start = int(sfreq * tstart)`. -/
def startOffsetOf (sfreq tstart : ℚ) : ℤ := pyTrunc (sfreq * tstart)

/-- Source lines 63-67: the rectified signal with the first
`n_samples_start` samples dropped. -/
def trimmedAbs (sig : List ℚ) (sfreq tstart : ℚ) : List ℚ :=
  (sig.map (fun x => |x|)).drop (startOffsetOf sfreq tstart).toNat

/-- Source lines 71-76: mean of the maxima of the first three one-second
blocks of the trimmed signal. -/
def initMaxOf (trimmed : List ℚ) (init : ℕ) : ℚ :=
  npMeanQ [npMax (trimmed.take init),
           npMax ((trimmed.drop init).take init),
           npMax ((trimmed.drop (2 * init)).take init)]

/-- Source lines 121-122: implied heart rates
`60 * len(cev) / (len(ecg) / sfreq)` for each candidate event list. -/
def ratesOf (cands : List (List ℕ)) (len : ℕ) (sfreq : ℚ) : List ℚ :=
  cands.map (fun ce => 60 * (ce.length : ℚ) / ((len : ℚ) / sfreq))

/-- Source line 125: indices of the candidates whose implied rate lies in
the plausible band (`rates <= 160` and `rates >= 40`). -/
def bandIdx (rates : List ℚ) : List ℕ :=
  (List.range rates.length).filter
    (fun i => decide (rates.getD i 0 ≤ 160 ∧ 40 ≤ rates.getD i 0))

/-- Source lines 126-129: median of the in-band rates, or the default 80. -/
def idealRateOf (rates : List ℚ) : ℚ :=
  if 0 < (bandIdx rates).length
  then npMedian ((bandIdx rates).map (fun i => rates.getD i 0))
  else 80

/-- Source line 130: `np.argmin(np.abs(rates - ideal_rate))`. -/
def selIdxOf (rates : List ℚ) : ℕ :=
  npArgmin (rates.map (fun r => |r - idealRateOf rates|))

/-- Source lines 86-118: the per-candidate event lists (`clean_events`),
one for every threshold fraction. -/
noncomputable def candList (sfreq : ℚ) (sig : List ℚ) (runs : List ℚ)
    (levels : ℚ) (nthresh : ℤ) (tstart : ℚ) : List (List ℕ) :=
  runs.map (fun f =>
    candidateEvents (trimmedAbs sig sfreq tstart)
      (initMaxOf (trimmedAbs sig sfreq tstart) (initOf sfreq).toNat * f)
      (winSizeOf sfreq) levels nthresh (startOffsetOf sfreq tstart).toNat)

/-- Model of `qrs_detector` (source lines 22-132).  The signal argument stands for
the band-pass-filtered ECG channel (the filter collaborator is external
and length-preserving). -/
noncomputable def qrsDetector (sfreq : ℚ) (sig : List ℚ) (spec : ThreshSpec)
    (levels : ℚ) (nthresh : ℤ) (tstart : ℚ) : Except String (List ℕ) :=
  match threshRuns spec with
  | .error e => .error e
  | .ok runs =>
    let cands := candList sfreq sig runs levels nthresh tstart
    let rates := ratesOf cands sig.length sfreq
    .ok (cands.getD (selIdxOf rates) [])

/-- Source lines 213-219: the index map from concatenated-space back to
original sample indices, laid out segment by segment. -/
def remapOf (onsets ends : List ℕ) : List ℕ :=
  (onsets.zip ends).flatMap (fun p => List.range' p.1 (p.2 - p.1))

/-- The usable segments are ordered and non-overlapping: each segment ends
no later than the next one starts, and each onset is at most its end. -/
def segsOrdered (onsets ends : List ℕ) : Prop :=
  List.Chain' (fun p q => p.2 ≤ q.1) (onsets.zip ends) ∧
    ∀ p ∈ onsets.zip ends, p.1 ≤ p.2

/-- Model of `find_ecg_events` (source lines 136-237), restricted to the event-table
computation the claims are about: run the detector on the concatenated
filtered signal, translate each event through the index map, add the
recording's first-sample offset, and emit rows `(index, 0, event_id)`. -/
noncomputable def findEcgEvents (sfreq : ℚ) (ecg : List ℚ) (onsets ends : List ℕ)
    (eventId firstSamp : ℤ) (spec : ThreshSpec) (levels : ℚ) (nthresh : ℤ)
    (tstart : ℚ) : Except String (List (ℤ × ℤ × ℤ)) :=
  match qrsDetector sfreq ecg spec levels nthresh tstart with
  | .error e => .error e
  | .ok evs =>
    .ok (evs.map (fun t =>
      (((remapOf onsets ends).getD t 0 : ℤ) + firstSamp, 0, eventId)))

/-- Model of `_ecg_segment_window` (source lines 240-274). -/
def ecgSegmentWindow (heart_rate : ℚ) : ℚ × ℚ :=
  let m := heart_rate / 60
  let epochs_start := -(35/100) / m
  let epochs_end := (5/10) / m
  if 80 ≤ heart_rate then (epochs_start - 1/10, epochs_end + 1/10)
  else (epochs_start, epochs_end)

/-- The scan recurrence exactly as the specification words it: position `i`
starts at 0 and advances by 1 while `signal[i] ≤ threshold`; when
`signal[i] > threshold` the index `i + argmax(signal[i:i+windowSize])` is
recorded and `i` advances by `windowSize`. -/
def specScanTime (sig : List ℚ) (th : ℚ) (w : ℕ) : ℕ → ℕ → List ℕ
  | 0, _ => []
  | fuel + 1, ii =>
    if ii < sig.length - w then
      if th < sig.getD ii 0 then
        (ii + argmaxFirst ((sig.drop ii).take w)) :: specScanTime sig th w fuel (ii + w)
      else specScanTime sig th w fuel (ii + 1)
    else []

/-! ### Basic lemmas about the argmax / argmin models -/

theorem argmaxFirst_lt_length : ∀ (l : List ℚ), l ≠ [] → argmaxFirst l < l.length
  | [], h => absurd rfl h
  | x :: xs, _ => by
    rw [argmaxFirst]
    split
    · next h => exact Nat.succ_lt_succ (argmaxFirst_lt_length xs h.1)
    · simp

theorem npArgmin_lt_length : ∀ (l : List ℚ), l ≠ [] → npArgmin l < l.length
  | [], h => absurd rfl h
  | x :: xs, _ => by
    rw [npArgmin]
    split
    · next h => exact Nat.succ_lt_succ (npArgmin_lt_length xs h.1)
    · simp

theorem npArgmin_le : ∀ (l : List ℚ) (j : ℕ), j < l.length →
    l.getD (npArgmin l) 0 ≤ l.getD j 0
  | [], j, h => by simp at h
  | x :: xs, j, h => by
    rw [npArgmin]
    split
    · next hc =>
      match j with
      | 0 => simpa using le_of_lt hc.2
      | j + 1 =>
        simpa using npArgmin_le xs j (by simpa using h)
    · next hc =>
      push_neg at hc
      match j with
      | 0 => simp
      | j + 1 =>
        have hxs : xs ≠ [] := by
          intro he
          subst he
          simp at h
        have h1 : x ≤ xs.getD (npArgmin xs) 0 := hc hxs
        have h2 : xs.getD (npArgmin xs) 0 ≤ xs.getD j 0 :=
          npArgmin_le xs j (by simpa using h)
        simpa using h1.trans h2

theorem npArgmin_first : ∀ (l : List ℚ) (j : ℕ), j < npArgmin l →
    l.getD (npArgmin l) 0 < l.getD j 0
  | [], j, h => by simp [npArgmin] at h
  | x :: xs, j, h => by
    rw [npArgmin] at h ⊢
    split at h
    · next hc =>
      rw [if_pos hc]
      match j with
      | 0 => simpa using hc.2
      | j + 1 =>
        simpa using npArgmin_first xs j (Nat.lt_of_succ_lt_succ h)
    · exact absurd h (Nat.not_lt_zero j)

/-! ### Lemmas about the per-candidate scan -/

theorem scanAux_lengths (sig : List ℚ) (th : ℚ) (w : ℕ) :
    ∀ fuel ii, ((scanAux sig th w fuel ii).2.1).length = ((scanAux sig th w fuel ii).1).length ∧
      ((scanAux sig th w fuel ii).2.2).length = ((scanAux sig th w fuel ii).1).length := by
  intro fuel
  induction fuel with
  | zero => intro ii; simp [scanAux]
  | succ n ih =>
    intro ii
    simp only [scanAux]
    split
    · split
      · simpa using ih (ii + w)
      · exact ih (ii + 1)
    · simp

theorem scanAux_ge (sig : List ℚ) (th : ℚ) (w : ℕ) :
    ∀ fuel ii t, t ∈ (scanAux sig th w fuel ii).1 → ii ≤ t := by
  intro fuel
  induction fuel with
  | zero => intro ii t ht; simp [scanAux] at ht
  | succ n ih =>
    intro ii t ht
    simp only [scanAux] at ht
    split at ht
    · split at ht
      · simp only [List.mem_cons] at ht
        rcases ht with h | h
        · subst h; exact Nat.le_add_right ii _
        · exact le_trans (Nat.le_add_right ii w) (ih (ii + w) t h)
      · exact le_trans (Nat.le_succ ii) (ih (ii + 1) t ht)
    · simp at ht

theorem scanAux_lt (sig : List ℚ) (th : ℚ) (w : ℕ) (hw : 0 < w) :
    ∀ fuel ii t, t ∈ (scanAux sig th w fuel ii).1 → t < sig.length := by
  intro fuel
  induction fuel with
  | zero => intro ii t ht; simp [scanAux] at ht
  | succ n ih =>
    intro ii t ht
    simp only [scanAux] at ht
    split at ht
    · next hii =>
      have hiw : ii + w < sig.length := Nat.add_lt_of_lt_sub hii
      split at ht
      · simp only [List.mem_cons] at ht
        rcases ht with h | h
        · subst h
          have hne : (sig.drop ii).take w ≠ [] := by
            have : 0 < ((sig.drop ii).take w).length := by
              rw [List.length_take, List.length_drop]
              exact lt_min hw (by omega)
            exact List.ne_nil_of_length_pos this
          have ha : argmaxFirst ((sig.drop ii).take w) < ((sig.drop ii).take w).length :=
            argmaxFirst_lt_length _ hne
          have hlen : ((sig.drop ii).take w).length ≤ w := by
            rw [List.length_take]; exact min_le_left _ _
          omega
        · exact ih (ii + w) t h
      · exact ih (ii + 1) t ht
    · simp at ht

theorem scanAux_chain (sig : List ℚ) (th : ℚ) (w : ℕ) (hw : 0 < w) :
    ∀ fuel ii, List.Chain' (· < ·) (scanAux sig th w fuel ii).1 := by
  intro fuel
  induction fuel with
  | zero => intro ii; simp [scanAux]
  | succ n ih =>
    intro ii
    simp only [scanAux]
    split
    · next hii =>
      split
      · rw [List.chain'_cons']
        refine ⟨?_, ih (ii + w)⟩
        intro y hy
        have hymem : y ∈ (scanAux sig th w n (ii + w)).1 :=
          List.mem_of_mem_head? hy
        have hge : ii + w ≤ y := scanAux_ge sig th w n (ii + w) y hymem
        have hne : (sig.drop ii).take w ≠ [] := by
          have hiw : ii + w < sig.length := Nat.add_lt_of_lt_sub hii
          have : 0 < ((sig.drop ii).take w).length := by
            rw [List.length_take, List.length_drop]
            exact lt_min hw (by omega)
          exact List.ne_nil_of_length_pos this
        have ha : argmaxFirst ((sig.drop ii).take w) < ((sig.drop ii).take w).length :=
          argmaxFirst_lt_length _ hne
        have hlen : ((sig.drop ii).take w).length ≤ w := by
          rw [List.length_take]; exact min_le_left _ _
        omega
      · exact ih (ii + 1)
    · simp

theorem headD_drop_take (sig : List ℚ) (ii w : ℕ) (hii : ii < sig.length) (hw : 0 < w) :
    ((sig.drop ii).take w).headD 0 = sig.getD ii 0 := by
  obtain ⟨a, rest, hd⟩ : ∃ a rest, sig.drop ii = a :: rest := by
    cases h : sig.drop ii with
    | nil =>
      exfalso
      have : sig.length - ii = 0 := by
        have := congrArg List.length h
        simpa using this
      omega
    | cons a rest => exact ⟨a, rest, rfl⟩
  obtain ⟨k, rfl⟩ : ∃ k, w = k + 1 := ⟨w - 1, (Nat.succ_pred_eq_of_pos hw).symm⟩
  have h0 : sig[ii]? = some a := by
    have h1 := List.getElem?_drop sig ii 0
    rw [hd] at h1
    simpa using h1.symm
  simp [hd, h0]

theorem scanAux_eq_spec (sig : List ℚ) (th : ℚ) (w : ℕ) (hw : 0 < w) :
    ∀ fuel ii, (scanAux sig th w fuel ii).1 = specScanTime sig th w fuel ii := by
  intro fuel
  induction fuel with
  | zero => intro ii; simp [scanAux, specScanTime]
  | succ n ih =>
    intro ii
    rw [scanAux, specScanTime]
    by_cases hii : ii < sig.length - w
    · have hlt : ii < sig.length := by omega
      simp only [if_pos hii, headD_drop_take sig ii w hlt hw]
      split
      · simp [ih (ii + w)]
      · simp [ih (ii + 1)]
    · simp only [if_neg hii]

/-! ### List plumbing: numpy fancy indexing as filters over zips -/

theorem zip_map_self {α β : Type _} (b : List α) (g : α → β) :
    b.zip (b.map g) = b.map (fun i => (i, g i)) := by
  induction b with
  | nil => rfl
  | cons x xs ih => simp [ih]

theorem filter_of_map {α β : Type _} (l : List α) (f : α → β) (p : β → Bool) :
    (l.map f).filter p = (l.filter (fun a => p (f a))).map f := by
  induction l with
  | nil => rfl
  | cons x xs ih =>
    by_cases h : p (f x) = true <;> simp [List.filter_cons, h, ih]

theorem range_filter_map_getD {α : Type _} (l : List α) (d : α) (p : α → Bool) :
    ((List.range l.length).filter (fun i => p (l.getD i d))).map (fun i => l.getD i d) =
      l.filter p := by
  induction l with
  | nil => simp
  | cons x xs ih =>
    rw [List.length_cons, List.range_succ_eq_map, List.filter_cons, List.filter_cons]
    by_cases h : p x = true
    · rw [if_pos (show p ((x :: xs).getD 0 d) = true from h), if_pos h, List.map_cons,
        filter_of_map, List.map_map]
      exact congrArg₂ List.cons rfl ih
    · rw [if_neg (show ¬p ((x :: xs).getD 0 d) = true from h), if_neg h,
        filter_of_map, List.map_map]
      exact ih

theorem range_filter3 :
    ∀ (rms : List ℝ) (ts : List ℕ) (cs : List ℤ) (pb : ℝ → ℤ → Bool) (f : ℕ → ℕ),
    ts.length = rms.length → cs.length = rms.length →
    ((List.range rms.length).filter (fun i => pb (rms.getD i 0) (cs.getD i 0))).map
        (fun i => f (ts.getD i 0)) =
      (((ts.zip cs).zip rms).filter (fun p => pb p.2 p.1.2)).map (fun p => f p.1.1)
  | [], ts, cs, pb, f, h1, h2 => by simp
  | r :: rs, [], cs, pb, f, h1, h2 => by simp at h1
  | r :: rs, t :: ts', [], pb, f, h1, h2 => by simp at h2
  | r :: rs, t :: ts', c :: cs', pb, f, h1, h2 => by
    simp only [List.length_cons, Nat.succ.injEq] at h1 h2
    have tail :
        ((List.range rs.length).filter
            (fun i => pb (rs.getD i 0) (cs'.getD i 0))).map (fun i => f (ts'.getD i 0)) =
          (((ts'.zip cs').zip rs).filter (fun p => pb p.2 p.1.2)).map (fun p => f p.1.1) :=
      range_filter3 rs ts' cs' pb f h1 h2
    rw [List.length_cons, List.range_succ_eq_map, List.filter_cons,
      List.zip_cons_cons, List.zip_cons_cons, List.filter_cons]
    by_cases h : pb r c = true
    · rw [if_pos (show pb ((r :: rs).getD 0 0) ((c :: cs').getD 0 0) = true from h),
        if_pos (show pb ((t, c), r).2 ((t, c), r).1.2 = true from h), List.map_cons,
        List.map_cons, filter_of_map, List.map_map]
      exact congrArg₂ List.cons rfl tail
    · rw [if_neg (show ¬pb ((r :: rs).getD 0 0) ((c :: cs').getD 0 0) = true from h),
        if_neg (show ¬pb ((t, c), r).2 ((t, c), r).1.2 = true from h),
        filter_of_map, List.map_map]
      exact tail

open scoped Classical in
theorem cleanStage_eq_range (time : List ℕ) (numcross : List ℤ) (rms : List ℝ)
    (levels : ℚ) (nthresh : ℤ) (off : ℕ) :
    cleanStage time numcross rms levels nthresh off =
      ((List.range rms.length).filter (fun i =>
          decide (rms.getD i 0 < npMeanR rms + npStdR rms * (levels : ℝ)) &&
            decide (numcross.getD i 0 < nthresh))).map
        (fun i => time.getD i 0 + off) := by
  unfold cleanStage
  dsimp only
  rw [zip_map_self, filter_of_map, List.map_map, List.map_map, List.map_map,
    List.filter_filter]
  apply congrArg
  apply List.filter_congr
  intro i _
  simp [Bool.and_comm]

/-! ### Evaluation of the degenerate sentinel candidate -/

theorem rmsOf_single_zero : rmsOf [0] = [0] := by
  simp [rmsOf]

theorem npMeanR_single (x : ℝ) : npMeanR [x] = x := by
  simp [npMeanR]

theorem npStdR_single (x : ℝ) : npStdR [x] = 0 := by
  simp [npStdR, npMeanR_single, npMeanR]

open scoped Classical in
theorem cleanStage_sentinel (levels : ℚ) (nthresh : ℤ) (off : ℕ) :
    cleanStage [0] [] (rmsOf [0]) levels nthresh off = [] := by
  rw [rmsOf_single_zero, cleanStage_eq_range]
  simp [npMeanR_single, npStdR_single]

/-! ### The per-candidate pipeline: representation and order lemmas -/

theorem scanQ_lengths (sig : List ℚ) (th : ℚ) (w : ℕ) :
    ((scanQ sig th w).2.1).length = ((scanQ sig th w).1).length ∧
      ((scanQ sig th w).2.2).length = ((scanQ sig th w).1).length :=
  scanAux_lengths sig th w sig.length 0

/-- The crossing-count list of the scan is empty whenever the mean-square
list is (all three lists are filled in lockstep). -/
theorem scanQ_numcross_nil (sig : List ℚ) (th : ℚ) (w : ℕ)
    (hs : (scanQ sig th w).2.2 = []) : (scanQ sig th w).2.1 = [] := by
  have hlen := scanQ_lengths sig th w
  have h0 : ((scanQ sig th w).2.1).length = 0 := by
    rw [hlen.1, ← hlen.2, hs]; rfl
  exact List.length_eq_zero.mp h0

theorem scanQ_time_nil (sig : List ℚ) (th : ℚ) (w : ℕ)
    (hs : (scanQ sig th w).2.2 = []) : (scanQ sig th w).1 = [] := by
  have hlen := scanQ_lengths sig th w
  have h0 : ((scanQ sig th w).1).length = 0 := by
    rw [← hlen.2, hs]; rfl
  exact List.length_eq_zero.mp h0

theorem runCandidateQ_sentinel (sig : List ℚ) (th : ℚ) (w : ℕ)
    (hs : (scanQ sig th w).2.2 = []) : runCandidateQ sig th w = ([0], [], [0]) := by
  unfold runCandidateQ
  dsimp only
  rw [if_pos hs, scanQ_numcross_nil sig th w hs]

theorem runCandidateQ_scan (sig : List ℚ) (th : ℚ) (w : ℕ)
    (hs : (scanQ sig th w).2.2 ≠ []) : runCandidateQ sig th w = scanQ sig th w := by
  unfold runCandidateQ
  dsimp only
  rw [if_neg hs]

theorem rmsOf_length (msq : List ℚ) : (rmsOf msq).length = msq.length := by
  simp only [rmsOf, List.length_map]

open scoped Classical in
/-- The outlier-rejection stage of one candidate, rewritten from numpy's
two-stage fancy indexing into a single filter over the zipped triple. -/
theorem candidateEvents_repr (sig : List ℚ) (th : ℚ) (w : ℕ) (levels : ℚ)
    (nthresh : ℤ) (off : ℕ) :
    candidateEvents sig th w levels nthresh off =
      ((((runCandidateQ sig th w).1.zip (runCandidateQ sig th w).2.1).zip
          (rmsOf (runCandidateQ sig th w).2.2)).filter (fun p =>
            decide (p.2 < npMeanR (rmsOf (runCandidateQ sig th w).2.2) +
              npStdR (rmsOf (runCandidateQ sig th w).2.2) * (levels : ℝ)) &&
            decide (p.1.2 < nthresh))).map (fun p => p.1.1 + off) := by
  unfold candidateEvents
  by_cases hs : (scanQ sig th w).2.2 = []
  · rw [runCandidateQ_sentinel sig th w hs]
    dsimp only
    rw [cleanStage_sentinel]
    simp
  · rw [runCandidateQ_scan sig th w hs]
    dsimp only
    rw [cleanStage_eq_range]
    have hts : ((scanQ sig th w).1).length = (rmsOf (scanQ sig th w).2.2).length := by
      rw [rmsOf_length]
      exact (scanQ_lengths sig th w).2.symm
    have hcs : ((scanQ sig th w).2.1).length = (rmsOf (scanQ sig th w).2.2).length := by
      rw [rmsOf_length, (scanQ_lengths sig th w).1]
      exact (scanQ_lengths sig th w).2.symm
    exact range_filter3 (rmsOf (scanQ sig th w).2.2) (scanQ sig th w).1
      (scanQ sig th w).2.1
      (fun x c => decide (x < npMeanR (rmsOf (scanQ sig th w).2.2) +
        npStdR (rmsOf (scanQ sig th w).2.2) * (levels : ℝ)) && decide (c < nthresh))
      (fun t => t + off) hts hcs

/-- Length of the trimmed rectified signal. -/
theorem trimmedAbs_length (sig : List ℚ) (sfreq tstart : ℚ) :
    (trimmedAbs sig sfreq tstart).length =
      sig.length - (startOffsetOf sfreq tstart).toNat := by
  rw [trimmedAbs, List.length_drop, List.length_map]

/-- The events surviving outlier rejection are strictly increasing and every
one of them is a scan peak shifted by the start offset. -/
theorem candidateEvents_chain_mem (sig : List ℚ) (th : ℚ) (w : ℕ) (levels : ℚ)
    (nthresh : ℤ) (off : ℕ) (hw : 0 < w) :
    List.Chain' (· < ·) (candidateEvents sig th w levels nthresh off) ∧
      ∀ x ∈ candidateEvents sig th w levels nthresh off,
        ∃ t ∈ (scanQ sig th w).1, x = t + off := by
  rw [candidateEvents_repr]
  constructor
  · by_cases hs : (scanQ sig th w).2.2 = []
    · rw [runCandidateQ_sentinel sig th w hs]
      simp
    · rw [runCandidateQ_scan sig th w hs]
      have hchain : List.Chain' (· < ·) (scanQ sig th w).1 :=
        scanAux_chain sig th w hw sig.length 0
      have hpw : List.Pairwise (· < ·) (scanQ sig th w).1 :=
        List.chain'_iff_pairwise.mp hchain
      have hzip : ((((scanQ sig th w).1.zip (scanQ sig th w).2.1).zip
            (rmsOf (scanQ sig th w).2.2)).map (fun p => p.1.1)) =
          (scanQ sig th w).1 := by
        have e1 : ((((scanQ sig th w).1.zip (scanQ sig th w).2.1).zip
            (rmsOf (scanQ sig th w).2.2)).map Prod.fst) =
            ((scanQ sig th w).1.zip (scanQ sig th w).2.1) := by
          apply List.map_fst_zip
          rw [List.length_zip, rmsOf_length,
            (scanQ_lengths sig th w).1, (scanQ_lengths sig th w).2]
          simp
        have e2 : (((scanQ sig th w).1.zip (scanQ sig th w).2.1).map Prod.fst) =
            (scanQ sig th w).1 := by
          apply List.map_fst_zip
          rw [(scanQ_lengths sig th w).1]
        calc ((((scanQ sig th w).1.zip (scanQ sig th w).2.1).zip
                (rmsOf (scanQ sig th w).2.2)).map (fun p => p.1.1))
            = ((((scanQ sig th w).1.zip (scanQ sig th w).2.1).zip
                (rmsOf (scanQ sig th w).2.2)).map Prod.fst).map Prod.fst := by
              rw [List.map_map]; rfl
          _ = (scanQ sig th w).1 := by rw [e1, e2]
      rw [show (fun p : (ℕ × ℤ) × ℝ => p.1.1 + off) =
          (fun t => t + off) ∘ (fun p : (ℕ × ℤ) × ℝ => p.1.1) from rfl, ← List.map_map]
      apply List.chain'_iff_pairwise.mpr
      apply List.Pairwise.map (fun t => t + off)
        (fun a b h => Nat.add_lt_add_right h off)
      refine List.Pairwise.sublist ?_ hpw
      conv_rhs => rw [← hzip]
      exact List.Sublist.map _ (List.filter_sublist _)
  · intro x hx
    simp only [List.mem_map, List.mem_filter] at hx
    obtain ⟨p, ⟨hp, _⟩, rfl⟩ := hx
    have h1 : p.1 ∈ ((runCandidateQ sig th w).1.zip (runCandidateQ sig th w).2.1) :=
      (List.of_mem_zip (by exact hp)).1
    have h2 : p.1.1 ∈ (runCandidateQ sig th w).1 := by
      have := List.of_mem_zip (a := p.1.1) (b := p.1.2) (by simpa using h1)
      exact this.1
    by_cases hs : (scanQ sig th w).2.2 = []
    · exfalso
      rw [runCandidateQ_sentinel sig th w hs] at hp
      simp at hp
    · rw [runCandidateQ_scan sig th w hs] at h2
      exact ⟨p.1.1, h2, rfl⟩

/-! ### Destructuring the detector and order properties of its output -/

theorem qrsDetector_err (sfreq : ℚ) (sig : List ℚ) (spec : ThreshSpec)
    (levels : ℚ) (nthresh : ℤ) (tstart : ℚ) (e : String)
    (h : threshRuns spec = .error e) :
    qrsDetector sfreq sig spec levels nthresh tstart = .error e := by
  unfold qrsDetector
  rw [h]

theorem qrsDetector_ok (sfreq : ℚ) (sig : List ℚ) (spec : ThreshSpec)
    (levels : ℚ) (nthresh : ℤ) (tstart : ℚ) (runs : List ℚ)
    (h : threshRuns spec = .ok runs) :
    qrsDetector sfreq sig spec levels nthresh tstart =
      .ok ((candList sfreq sig runs levels nthresh tstart).getD
        (selIdxOf (ratesOf (candList sfreq sig runs levels nthresh tstart)
          sig.length sfreq)) []) := by
  unfold qrsDetector
  rw [h]

section SymbolicRate

/- Within this section the Python rounding helpers are kept from unfolding:
on symbolic rationals their if-conditions are stuck, and letting the
elaborator attempt to reduce them is prohibitively expensive. -/
attribute [local irreducible] pyTrunc pyRound

theorem qrs_ok_chain_bounds (sfreq : ℚ) (sig : List ℚ) (spec : ThreshSpec)
    (levels : ℚ) (nthresh : ℤ) (tstart : ℚ) (evs : List ℕ)
    (hw : 0 < winSizeOf sfreq)
    (h : qrsDetector sfreq sig spec levels nthresh tstart = .ok evs) :
    List.Chain' (· < ·) evs ∧ ∀ x ∈ evs, x < sig.length := by
  cases hT : threshRuns spec with
  | error e =>
    rw [qrsDetector_err sfreq sig spec levels nthresh tstart e hT] at h
    exact absurd h (by simp)
  | ok runs =>
    have hprop : ∀ c ∈ candList sfreq sig runs levels nthresh tstart,
        List.Chain' (· < ·) c ∧ ∀ x ∈ c, x < sig.length := by
      intro c hc
      rw [candList, List.mem_map] at hc
      obtain ⟨f, _, rfl⟩ := hc
      have hcm := candidateEvents_chain_mem (trimmedAbs sig sfreq tstart)
        (initMaxOf (trimmedAbs sig sfreq tstart) (initOf sfreq).toNat * f)
        (winSizeOf sfreq) levels nthresh (startOffsetOf sfreq tstart).toNat hw
      refine ⟨hcm.1, ?_⟩
      intro x hx
      obtain ⟨t, ht, rfl⟩ := hcm.2 x hx
      have h1 : t < (trimmedAbs sig sfreq tstart).length :=
        scanAux_lt (trimmedAbs sig sfreq tstart)
          (initMaxOf (trimmedAbs sig sfreq tstart) (initOf sfreq).toNat * f)
          (winSizeOf sfreq) hw (trimmedAbs sig sfreq tstart).length 0 t ht
      rw [trimmedAbs_length] at h1
      omega
    rw [qrsDetector_ok sfreq sig spec levels nthresh tstart runs hT] at h
    have hevs : evs = (candList sfreq sig runs levels nthresh tstart).getD
        (selIdxOf (ratesOf (candList sfreq sig runs levels nthresh tstart)
          sig.length sfreq)) [] := by
      injection h with h'
      exact h'.symm
    subst hevs
    by_cases hsel : selIdxOf (ratesOf (candList sfreq sig runs levels nthresh tstart)
        sig.length sfreq) < (candList sfreq sig runs levels nthresh tstart).length
    · rw [List.getD_eq_getElem _ _ hsel]
      exact hprop _ (List.getElem_mem hsel)
    · rw [List.getD_eq_default _ _ (le_of_not_lt hsel)]
      exact ⟨List.chain'_nil, by simp⟩

end SymbolicRate

/-! ### The index map of find_ecg_events -/

theorem chain'_lt_range' : ∀ (n s : ℕ), List.Chain' (· < ·) (List.range' s n)
  | 0, s => by simp
  | n + 1, s => by
    rw [List.range'_succ, List.chain'_cons']
    refine ⟨?_, chain'_lt_range' n (s + 1)⟩
    intro y hy
    have hmem : y ∈ List.range' (s + 1) n := List.mem_of_mem_head? hy
    have := List.mem_range'_1.mp hmem
    omega

theorem flatRanges_lb_chain :
    ∀ (l : List (ℕ × ℕ)) (lb : ℕ),
    List.Chain' (fun p q => p.2 ≤ q.1) l → (∀ p ∈ l, p.1 ≤ p.2) →
    (∀ p ∈ l.head?, lb ≤ p.1) →
    List.Chain' (· < ·) (l.flatMap (fun p => List.range' p.1 (p.2 - p.1))) ∧
      ∀ x ∈ l.flatMap (fun p => List.range' p.1 (p.2 - p.1)), lb ≤ x
  | [], lb, _, _, _ => by simp
  | p :: rest, lb, hchain, hse, hlb => by
    rw [List.chain'_cons'] at hchain
    have ihr := flatRanges_lb_chain rest p.2 hchain.2
      (fun q hq => hse q (List.mem_cons_of_mem p hq)) hchain.1
    have hp : p.1 ≤ p.2 := hse p (List.mem_cons_self p rest)
    have hlbp : lb ≤ p.1 := hlb p rfl
    rw [List.flatMap_cons]
    constructor
    · apply List.chain'_append.mpr
      refine ⟨chain'_lt_range' (p.2 - p.1) p.1, ihr.1, ?_⟩
      intro x hx y hy
      have hxm : x ∈ List.range' p.1 (p.2 - p.1) := List.mem_of_mem_getLast? hx
      have hym : y ∈ rest.flatMap (fun p => List.range' p.1 (p.2 - p.1)) :=
        List.mem_of_mem_head? hy
      have h1 := List.mem_range'_1.mp hxm
      have h2 := ihr.2 y hym
      omega
    · intro x hx
      rw [List.mem_append] at hx
      rcases hx with hx | hx
      · have := List.mem_range'_1.mp hx
        omega
      · have := ihr.2 x hx
        omega

theorem remapOf_chain (onsets ends : List ℕ) (h : segsOrdered onsets ends) :
    List.Chain' (· < ·) (remapOf onsets ends) :=
  (flatRanges_lb_chain (onsets.zip ends) 0 h.1 h.2 (by simp)).1

theorem pairwise_lt_getD (l : List ℕ) (hpw : List.Pairwise (· < ·) l)
    (i j : ℕ) (hij : i < j) (hj : j < l.length) (d : ℕ) :
    l.getD i d < l.getD j d := by
  rw [List.getD_eq_getElem l d (lt_trans hij hj), List.getD_eq_getElem l d hj]
  exact List.pairwise_iff_getElem.mp hpw i j (lt_trans hij hj) hj hij

/-! ### Helpers for the best-candidate selection -/

theorem npArange_auto_ne_nil : npArange (3/10) (11/10) (1/20) ≠ [] := by
  rw [npArange]
  have harg : (((11:ℚ)/10) - 3/10) / (1/20) = 16 := by norm_num
  rw [harg]
  simp
  exact ⟨0, by norm_num⟩

theorem threshRuns_ok_ne_nil (spec : ThreshSpec) (runs : List ℚ)
    (h : threshRuns spec = .ok runs) : runs ≠ [] := by
  cases spec with
  | num q =>
    have : runs = [q] := by
      simpa [threshRuns] using h.symm
    simp [this]
  | str s =>
    by_cases hs : s = "auto"
    · subst hs
      have : runs = npArange (3/10) (11/10) (1/20) := by
        simpa [threshRuns] using h.symm
      subst this
      exact npArange_auto_ne_nil
    · rw [threshRuns, if_neg hs] at h
      exact absurd h (by simp)

theorem getD_map_lt (l : List ℚ) (f : ℚ → ℚ) (j : ℕ) (h : j < l.length)
    (d d' : ℚ) : (l.map f).getD j d = f (l.getD j d') := by
  rw [List.getD_eq_getElem (l.map f) d (by simpa using h),
    List.getD_eq_getElem l d' h, List.getElem_map]

theorem bandIdx_map_getD (rates : List ℚ) :
    (bandIdx rates).map (fun i => rates.getD i 0) =
      rates.filter (fun r => decide (r ≤ 160 ∧ 40 ≤ r)) :=
  range_filter_map_getD rates 0 (fun r => decide (r ≤ 160 ∧ 40 ≤ r))

theorem bandIdx_pos_iff (rates : List ℚ) :
    0 < (bandIdx rates).length ↔ ∃ r ∈ rates, 40 ≤ r ∧ r ≤ 160 := by
  constructor
  · intro h
    obtain ⟨i, hi⟩ : ∃ i, i ∈ bandIdx rates := by
      cases hb : bandIdx rates with
      | nil => rw [hb] at h; simp at h
      | cons a l => exact ⟨a, hb ▸ List.mem_cons_self a l⟩
    rw [bandIdx, List.mem_filter, List.mem_range] at hi
    have hmem : rates.getD i 0 ∈ rates := by
      rw [List.getD_eq_getElem rates 0 hi.1]
      exact List.getElem_mem hi.1
    refine ⟨rates.getD i 0, hmem, ?_, ?_⟩
    · exact (of_decide_eq_true hi.2).2
    · exact (of_decide_eq_true hi.2).1
  · intro ⟨r, hr, h40, h160⟩
    obtain ⟨i, hi, hget⟩ := List.getElem_of_mem hr
    have hmem : i ∈ bandIdx rates := by
      rw [bandIdx, List.mem_filter, List.mem_range]
      refine ⟨hi, decide_eq_true ?_⟩
      rw [List.getD_eq_getElem rates 0 hi, hget]
      exact ⟨h160, h40⟩
    have : bandIdx rates ≠ [] := List.ne_nil_of_mem hmem
    exact List.length_pos.mpr this

theorem filter_band_comm (rates : List ℚ) :
    rates.filter (fun r => decide (r ≤ 160 ∧ 40 ≤ r)) =
      rates.filter (fun r => decide (40 ≤ r ∧ r ≤ 160)) := by
  apply List.filter_congr
  intro r _
  exact decide_eq_decide.mpr and_comm

/-- The ideal rate of the source written in the specification's wording. -/
theorem idealRateOf_spec (rates : List ℚ) :
    idealRateOf rates =
      if ∃ r ∈ rates, 40 ≤ r ∧ r ≤ 160
      then npMedian (rates.filter (fun r => decide (40 ≤ r ∧ r ≤ 160)))
      else 80 := by
  rw [idealRateOf]
  by_cases h : ∃ r ∈ rates, 40 ≤ r ∧ r ≤ 160
  · rw [if_pos ((bandIdx_pos_iff rates).mpr h), if_pos h,
      bandIdx_map_getD, filter_band_comm]
  · rw [if_neg (fun hp => h ((bandIdx_pos_iff rates).mp hp)), if_neg h]

section SymbolicSelection

attribute [local irreducible] pyTrunc pyRound

/-- Claim C2: for every call to qrs_detector, the returned event list is that
of the candidate whose implied heart rate (60 * eventCount /
signalDurationSeconds) has the smallest absolute difference to the target
rate; the target rate is the median of the candidates' implied rates lying
in [40, 160] bpm when at least one such rate exists and 80 bpm otherwise;
ties resolve to the first minimal-distance candidate in iteration order. -/
theorem spec_C2_best_candidate (sfreq : ℚ) (sig : List ℚ) (spec : ThreshSpec)
    (levels : ℚ) (nthresh : ℤ) (tstart : ℚ) (evs : List ℕ)
    (h : qrsDetector sfreq sig spec levels nthresh tstart = .ok evs) :
    ∃ runs, threshRuns spec = .ok runs ∧
      (let cands := candList sfreq sig runs levels nthresh tstart
       let rates := ratesOf cands sig.length sfreq
       let ideal := if ∃ r ∈ rates, 40 ≤ r ∧ r ≤ 160
         then npMedian (rates.filter (fun r => decide (40 ≤ r ∧ r ≤ 160))) else 80
       ∃ i, i < cands.length ∧ evs = cands.getD i [] ∧
         (∀ j, j < rates.length →
           |rates.getD i 0 - ideal| ≤ |rates.getD j 0 - ideal|) ∧
         (∀ j, j < i → |rates.getD i 0 - ideal| < |rates.getD j 0 - ideal|)) := by
  cases hT : threshRuns spec with
  | error e =>
    rw [qrsDetector_err sfreq sig spec levels nthresh tstart e hT] at h
    exact absurd h (by simp)
  | ok runs =>
    refine ⟨runs, rfl, ?_⟩
    dsimp only
    rw [qrsDetector_ok sfreq sig spec levels nthresh tstart runs hT] at h
    have hevs : evs = (candList sfreq sig runs levels nthresh tstart).getD
        (selIdxOf (ratesOf (candList sfreq sig runs levels nthresh tstart)
          sig.length sfreq)) [] := by
      injection h with h'
      exact h'.symm
    have hrne : runs ≠ [] := threshRuns_ok_ne_nil spec runs hT
    have hcne : candList sfreq sig runs levels nthresh tstart ≠ [] := by
      rw [candList]
      simpa using hrne
    have hratesne : ratesOf (candList sfreq sig runs levels nthresh tstart)
        sig.length sfreq ≠ [] := by
      rw [ratesOf]
      simpa using hcne
    have hlenrc : (ratesOf (candList sfreq sig runs levels nthresh tstart)
        sig.length sfreq).length =
        (candList sfreq sig runs levels nthresh tstart).length := by
      rw [ratesOf, List.length_map]
    set rates := ratesOf (candList sfreq sig runs levels nthresh tstart)
      sig.length sfreq with hratesdef
    have hmapne : rates.map (fun r => |r - idealRateOf rates|) ≠ [] := by
      simpa using hratesne
    have hlt : npArgmin (rates.map (fun r => |r - idealRateOf rates|)) <
        rates.length := by
      have h1 := npArgmin_lt_length _ hmapne
      simpa using h1
    rw [selIdxOf] at hevs
    refine ⟨npArgmin (rates.map (fun r => |r - idealRateOf rates|)),
      hlenrc ▸ hlt, hevs, ?_, ?_⟩
    · intro j hj
      have h1 := npArgmin_le (rates.map (fun r => |r - idealRateOf rates|)) j
        (by simpa using hj)
      rw [getD_map_lt rates _ _ hlt 0 0, getD_map_lt rates _ _ hj 0 0] at h1
      rw [← idealRateOf_spec rates]
      exact h1
    · intro j hj
      have hjr : j < rates.length :=
        lt_trans hj hlt
      have h1 := npArgmin_first (rates.map (fun r => |r - idealRateOf rates|)) j hj
      rw [getD_map_lt rates _ _ hlt 0 0, getD_map_lt rates _ _ hjr 0 0] at h1
      rw [← idealRateOf_spec rates]
      exact h1

end SymbolicSelection

/-! ### Crossing statistics: telescoping sum of mask differences -/

theorem maskAbove_mem_01 (l : List ℚ) (t : ℚ) :
    ∀ x ∈ maskAbove l t, x = 0 ∨ x = 1 := by
  intro x hx
  rw [maskAbove, List.mem_map] at hx
  obtain ⟨a, _, rfl⟩ := hx
  by_cases h : t < a <;> simp [h]

theorem sumDiff_edges : ∀ (m : List ℤ), (∀ x ∈ m, x = 0 ∨ x = 1) →
    (npDiff m).sum = (risingEdges m : ℤ) - (fallingEdges m : ℤ)
  | [], _ => by simp [npDiff, risingEdges, fallingEdges]
  | [x], _ => by simp [npDiff, risingEdges, fallingEdges]
  | x :: y :: rest, h => by
    have ih := sumDiff_edges (y :: rest)
      (fun z hz => h z (List.mem_cons_of_mem x hz))
    have hx := h x (List.mem_cons_self x (y :: rest))
    have hy := h y (List.mem_cons_of_mem x (List.mem_cons_self y rest))
    simp only [npDiff, risingEdges, fallingEdges, List.tail_cons,
      List.zip_cons_cons, List.map_cons, List.sum_cons, List.filter_cons] at ih ⊢
    rcases hx with rfl | rfl <;> rcases hy with rfl | rfl <;>
      (simp at ih ⊢; omega)

theorem scanAux_numcross_mem (sig : List ℚ) (th : ℚ) (w : ℕ) :
    ∀ fuel ii c, c ∈ (scanAux sig th w fuel ii).2.1 →
      ∃ j, th < ((sig.drop j).take w).headD 0 ∧
        c = numcrossOf ((sig.drop j).take w) th := by
  intro fuel
  induction fuel with
  | zero => intro ii c hc; simp [scanAux] at hc
  | succ n ih =>
    intro ii c hc
    simp only [scanAux] at hc
    split at hc
    · split at hc
      · next hth =>
        simp only [List.mem_cons] at hc
        rcases hc with rfl | hc
        · exact ⟨ii, hth, rfl⟩
        · exact ih _ c hc
      · exact ih _ c hc
    · simp at hc

/-! ### Claim theorems: the scan (C1), crossings (C3), outliers (C4),
invariants (C9) and the degenerate sentinel (C10) -/

/-- Claim C1: for every threshold candidate the per-candidate scan is a
single left-to-right pass: the position starts at 0, advances by 1 while
the signal is at or below the threshold, and on an exceedance records
`i + argmax(signal[i:i+windowSize])` and jumps by `windowSize`; the
recorded peak indices are exactly those of this recurrence and are
strictly increasing. -/
theorem spec_C1_scan_recurrence (sig : List ℚ) (th : ℚ) (w : ℕ) (hw : 0 < w) :
    (scanQ sig th w).1 = specScanTime sig th w sig.length 0 ∧
      List.Chain' (· < ·) (scanQ sig th w).1 :=
  ⟨scanAux_eq_spec sig th w hw sig.length 0, scanAux_chain sig th w hw sig.length 0⟩

/-- Claim C3 (amended): the crossing statistic recorded for a detected
window is the number of rising edges minus the number of falling edges of
the window's binary above-threshold mask (the source sums `np.diff` of the
mask, which telescopes), not the number of rising edges alone. -/
theorem spec_C3_crossing_count (sig : List ℚ) (th : ℚ) (w : ℕ) :
    (∀ window : List ℚ, numcrossOf window th =
      (risingEdges (maskAbove window th) : ℤ) -
        (fallingEdges (maskAbove window th) : ℤ)) ∧
    ∀ c ∈ (scanQ sig th w).2.1, ∃ j, th < ((sig.drop j).take w).headD 0 ∧
      c = numcrossOf ((sig.drop j).take w) th :=
  ⟨fun window => sumDiff_edges (maskAbove window th) (maskAbove_mem_01 window th),
   fun c hc => scanAux_numcross_mem sig th w sig.length 0 c hc⟩

open scoped Classical in
/-- Claim C4: per candidate, the surviving peaks are exactly those whose
window RMS is strictly below rmsMean + levels * rmsStd and whose crossing
count is strictly below n_thresh, each then shifted by the start offset. -/
theorem spec_C4_outlier_rejection (sig : List ℚ) (th : ℚ) (w : ℕ)
    (levels : ℚ) (nthresh : ℤ) (off : ℕ) :
    candidateEvents sig th w levels nthresh off =
      ((((runCandidateQ sig th w).1.zip (runCandidateQ sig th w).2.1).zip
          (rmsOf (runCandidateQ sig th w).2.2)).filter (fun p =>
            decide (p.2 < npMeanR (rmsOf (runCandidateQ sig th w).2.2) +
              (levels : ℝ) * npStdR (rmsOf (runCandidateQ sig th w).2.2)) &&
            decide (p.1.2 < nthresh))).map (fun p => p.1.1 + off) := by
  rw [candidateEvents_repr]
  apply congrArg
  apply List.filter_congr
  intro p _
  rw [mul_comm (npStdR (rmsOf (runCandidateQ sig th w).2.2)) ((levels : ℚ) : ℝ)]

/-- Claim C9 (amended): the three per-candidate sequences have equal length
whenever the scan found at least one peak; when it found none, the peak and
RMS sequences receive the single degenerate entry (index 0, RMS 0) while
the crossing-count sequence stays empty. -/
theorem spec_C9_sequence_lengths (sig : List ℚ) (th : ℚ) (w : ℕ) :
    ((scanQ sig th w).1 ≠ [] →
      (runCandidateQ sig th w).1.length = (rmsOf (runCandidateQ sig th w).2.2).length ∧
      (runCandidateQ sig th w).2.1.length =
        (rmsOf (runCandidateQ sig th w).2.2).length) ∧
    ((scanQ sig th w).1 = [] →
      (runCandidateQ sig th w).1 = [0] ∧ (runCandidateQ sig th w).2.1 = [] ∧
        rmsOf (runCandidateQ sig th w).2.2 = [0]) := by
  constructor
  · intro hne
    have hs : (scanQ sig th w).2.2 ≠ [] := by
      intro hs
      exact hne (scanQ_time_nil sig th w hs)
    rw [runCandidateQ_scan sig th w hs, rmsOf_length]
    exact ⟨(scanQ_lengths sig th w).2.symm,
      (scanQ_lengths sig th w).1.trans (scanQ_lengths sig th w).2.symm⟩
  · intro hnil
    have hs : (scanQ sig th w).2.2 = [] := by
      have hlen := scanQ_lengths sig th w
      have h0 : ((scanQ sig th w).2.2).length = 0 := by
        rw [hlen.2, hnil]; rfl
      exact List.length_eq_zero.mp h0
    rw [runCandidateQ_sentinel sig th w hs]
    exact ⟨rfl, rfl, rmsOf_single_zero⟩

/-- Claim C10: a candidate whose scan found no genuine peak ends with an
empty event list: the sentinel rms threshold evaluates to 0, the strict
comparison 0 < 0 fails, the sentinel index 0 is discarded, and the
candidate's implied heart rate is exactly 0. -/
theorem spec_C10_sentinel_removed (sig : List ℚ) (th : ℚ) (w : ℕ)
    (levels : ℚ) (nthresh : ℤ) (off : ℕ) (len : ℕ) (sfreq : ℚ)
    (h : (scanQ sig th w).1 = []) :
    candidateEvents sig th w levels nthresh off = [] ∧
      npMeanR (rmsOf [0]) + npStdR (rmsOf [0]) * (levels : ℝ) = 0 ∧
      ratesOf [candidateEvents sig th w levels nthresh off] len sfreq = [0] := by
  have hs : (scanQ sig th w).2.2 = [] := by
    have hlen := scanQ_lengths sig th w
    have h0 : ((scanQ sig th w).2.2).length = 0 := by
      rw [hlen.2, h]; rfl
    exact List.length_eq_zero.mp h0
  have hmain : candidateEvents sig th w levels nthresh off = [] := by
    unfold candidateEvents
    rw [runCandidateQ_sentinel sig th w hs]
    exact cleanStage_sentinel levels nthresh off
  refine ⟨hmain, ?_, ?_⟩
  · rw [rmsOf_single_zero, npMeanR_single, npStdR_single]
    ring
  · rw [hmain, ratesOf]
    simp

/-! ### Claims about initialization (C5), configuration (C6), the
heartbeat window (C8) and the event table (C7) -/

theorem pyRound_nonneg (q : ℚ) (h : 0 ≤ q) : 0 ≤ pyRound q := by
  have hf : (0:ℤ) ≤ ⌊q⌋ := Int.le_floor.mpr (by exact_mod_cast h)
  have hc : (0:ℤ) ≤ ⌈q⌉ := le_trans hf (Int.floor_le_ceil q)
  rw [pyRound]
  split
  · exact hf
  · split
    · exact hc
    · split
      · exact hf
      · exact hc

section SymbolicInit

attribute [local irreducible] pyTrunc pyRound

/-- Claim C5 (amended): windowSize is the Python `int(round(60*rate/120))`
(round half to even), but initSeconds and startOffset use Python `int(...)`
— truncation toward zero, not `round` — and the first startOffset samples
of the rectified signal are dropped before any detection. -/
theorem spec_C5_initialization (sfreq tstart : ℚ) (sig : List ℚ)
    (h0 : 0 ≤ sfreq) (h1 : 0 ≤ tstart) :
    (winSizeOf sfreq : ℤ) = pyRound (60 * sfreq / 120) ∧
    initOf sfreq = ⌊sfreq⌋ ∧
    startOffsetOf sfreq tstart = ⌊sfreq * tstart⌋ ∧
    trimmedAbs sig sfreq tstart =
      (sig.map (fun x => |x|)).drop (startOffsetOf sfreq tstart).toNat := by
  refine ⟨?_, ?_, ?_, rfl⟩
  · rw [winSizeOf]
    exact Int.toNat_of_nonneg (pyRound_nonneg _
      (div_nonneg (mul_nonneg (by norm_num) h0) (by norm_num)))
  · rw [initOf, pyTrunc, if_pos h0]
  · rw [startOffsetOf, pyTrunc, if_pos (mul_nonneg h0 h1)]

/-- Claim C7: with ordered, non-overlapping usable segments, each output
row is (indexMap[concatenatedIndex] + firstSampleOffset, 0, eventCode) and
the rows are in strictly ascending order of the absolute sample index. -/
theorem spec_C7_event_table (sfreq : ℚ) (ecg : List ℚ) (onsets ends : List ℕ)
    (eventId firstSamp : ℤ) (spec : ThreshSpec) (levels : ℚ) (nthresh : ℤ)
    (tstart : ℚ) (evs : List ℕ)
    (hseg : segsOrdered onsets ends)
    (hcover : (remapOf onsets ends).length = ecg.length)
    (hw : 0 < winSizeOf sfreq)
    (hq : qrsDetector sfreq ecg spec levels nthresh tstart = .ok evs) :
    findEcgEvents sfreq ecg onsets ends eventId firstSamp spec levels nthresh
        tstart =
      .ok (evs.map (fun t =>
        (((remapOf onsets ends).getD t 0 : ℤ) + firstSamp, 0, eventId))) ∧
    List.Chain' (· < ·)
      (evs.map (fun t => ((remapOf onsets ends).getD t 0 : ℤ) + firstSamp)) := by
  constructor
  · unfold findEcgEvents
    rw [hq]
  · obtain ⟨hchain, hbound⟩ :=
      qrs_ok_chain_bounds sfreq ecg spec levels nthresh tstart evs hw hq
    have hpw := List.chain'_iff_pairwise.mp hchain
    have hrpw := List.chain'_iff_pairwise.mp (remapOf_chain onsets ends hseg)
    apply List.chain'_iff_pairwise.mpr
    rw [List.pairwise_map]
    refine List.Pairwise.imp_of_mem ?_ hpw
    intro a b ha hb hab
    have hb' : b < (remapOf onsets ends).length := by
      rw [hcover]
      exact hbound b hb
    have hgl := pairwise_lt_getD (remapOf onsets ends) hrpw a b hab hb' 0
    omega

end SymbolicInit

/-- Claim C6: with "auto" the candidate fractions are exactly the 16 values
0.30, 0.35, ..., 1.05; a numeric specification yields that single
candidate; any other string raises the configuration error before any
per-candidate computation. -/
theorem spec_C6_threshold_config (s : String) (q : ℚ) (sfreq levels tstart : ℚ)
    (nthresh : ℤ) (sig : List ℚ) (hs : s ≠ "auto") :
    threshRuns (.str "auto") =
      .ok [3/10, 7/20, 2/5, 9/20, 1/2, 11/20, 3/5, 13/20, 7/10, 3/4, 4/5,
        17/20, 9/10, 19/20, 1, 21/20] ∧
    threshRuns (.num q) = .ok [q] ∧
    qrsDetector sfreq sig (.str s) levels nthresh tstart =
      .error "threshold value must be auto or a float" := by
  refine ⟨?_, rfl, ?_⟩
  · rw [threshRuns, if_pos rfl, npArange]
    have harg : (((11:ℚ)/10) - 3/10) / (1/20) = 16 := by norm_num
    rw [harg]
    have hceil : (⌈(16:ℚ)⌉).toNat = 16 := by
      rw [show (⌈(16:ℚ)⌉ : ℤ) = 16 by norm_num]
      rfl
    rw [hceil, show List.range 16 = [0,1,2,3,4,5,6,7,8,9,10,11,12,13,14,15] from rfl]
    norm_num
  · apply qrsDetector_err
    rw [threshRuns, if_neg hs]

/-- Claim C8: the heartbeat window is onset = -0.35/(hr/60) and
offset = 0.5/(hr/60), with 0.1 subtracted from the onset and added to the
offset exactly when hr ≥ 80. -/
theorem spec_C8_heartbeat_window (hr : ℚ) (h : 0 < hr) :
    ecgSegmentWindow hr =
      (-(35/100) / (hr / 60) - (if 80 ≤ hr then 1/10 else 0),
       (5/10) / (hr / 60) + (if 80 ≤ hr then 1/10 else 0)) := by
  rw [ecgSegmentWindow]
  by_cases h80 : 80 ≤ hr
  · simp [if_pos h80]
  · simp [if_neg h80]

/-! ### Concrete evaluations -/

theorem winSize_two : winSizeOf 2 = 1 := by
  rw [winSizeOf, show (60 * (2:ℚ) / 120) = 1 by norm_num, pyRound,
    show (⌊(1:ℚ)⌋:ℤ) = 1 from by norm_num]
  norm_num

theorem startOff_two_zero : (startOffsetOf 2 0).toNat = 0 := by
  rw [startOffsetOf, show ((2:ℚ) * 0) = 0 by norm_num, pyTrunc]
  norm_num

theorem trimmed_zero_eval :
    trimmedAbs [0,0,0,0,0,0,0,0] 2 0 = [0,0,0,0,0,0,0,0] := by
  rw [trimmedAbs, startOff_two_zero]
  norm_num

theorem scan_zero_eval : scanQ ([0,0,0,0,0,0,0,0] : List ℚ) 0 1 = ([], [], []) := by
  norm_num [scanQ, scanAux]

theorem cand_zero_eval :
    candidateEvents ([0,0,0,0,0,0,0,0] : List ℚ) 0 1 (5/2) 3 0 = [] := by
  unfold candidateEvents
  rw [runCandidateQ_sentinel _ _ _ (by rw [scan_zero_eval])]
  exact cleanStage_sentinel (5/2) 3 0

theorem initMax_zero_eval :
    initMaxOf (trimmedAbs [0,0,0,0,0,0,0,0] 2 0) (initOf 2).toNat * (1/2 : ℚ) = 0 := by
  rw [trimmed_zero_eval, show ((initOf 2).toNat) = 2 from by
    rw [initOf, pyTrunc, if_pos (by norm_num : (0:ℚ) ≤ 2),
      show (⌊(2:ℚ)⌋:ℤ) = 2 from by norm_num]
    rfl]
  norm_num [initMaxOf, npMeanQ, npMax, List.max?, List.foldl]

theorem qrs_zero_eval :
    qrsDetector 2 [0,0,0,0,0,0,0,0] (.num (1/2)) (5/2) 3 0 = .ok [] := by
  rw [qrsDetector_ok 2 [0,0,0,0,0,0,0,0] (.num (1/2)) (5/2) 3 0 [1/2] rfl]
  have e1 : candList 2 [0,0,0,0,0,0,0,0] [1/2] (5/2) 3 0 = [[]] := by
    rw [candList]
    simp only [List.map_cons, List.map_nil]
    rw [winSize_two, startOff_two_zero, initMax_zero_eval, trimmed_zero_eval,
      cand_zero_eval]
  rw [e1]
  have e2 : ratesOf [([] : List ℕ)] ([0,0,0,0,0,0,0,0] : List ℚ).length 2 = [0] := by
    norm_num [ratesOf]
  rw [e2]
  have e3 : selIdxOf [0] = 0 := by
    rw [selIdxOf]
    norm_num [idealRateOf, bandIdx, npArgmin]
  rw [e3]
  rfl

/-! ### Counterexamples and witnesses -/

/-- Claim C3, counterexample: at the scan of the signal [5,1,5,0,0] with
threshold 2 and window size 3, the window [5,1,5] is detected at position 0
and its recorded crossing statistic is 0, while its mask [1,0,1] has one
rising edge. -/
theorem spec_C3_counterexample :
    (scanQ [5,1,5,0,0] 2 3).1 = [0] ∧
    (scanQ [5,1,5,0,0] 2 3).2.1 = [0] ∧
    risingEdges (maskAbove ((([5,1,5,0,0] : List ℚ).drop 0).take 3) 2) = 1 ∧
    (scanQ [5,1,5,0,0] 2 3).2.1.getD 0 0 ≠
      (risingEdges (maskAbove ((([5,1,5,0,0] : List ℚ).drop 0).take 3) 2) : ℤ) := by
  have hscan : scanQ ([5,1,5,0,0] : List ℚ) 2 3 = ([0], [0], [17]) := by
    norm_num [scanQ, scanAux, argmaxFirst, numcrossOf, maskAbove, npDiff,
      sum_squared]
  have hrise :
      risingEdges (maskAbove ((([5,1,5,0,0] : List ℚ).drop 0).take 3) 2) = 1 := by
    norm_num [risingEdges, maskAbove]
  rw [hscan, hrise]
  refine ⟨rfl, rfl, rfl, by decide⟩

/-- Claim C1, witness at the signal [4,0,0,0,0,0,8,0], threshold 2,
window size 1. -/
theorem spec_C1_witness :
    (0:ℕ) < 1 ∧
    ((scanQ [4,0,0,0,0,0,8,0] 2 1).1 =
        specScanTime [4,0,0,0,0,0,8,0] 2 1 ([4,0,0,0,0,0,8,0] : List ℚ).length 0 ∧
      List.Chain' (· < ·) (scanQ [4,0,0,0,0,0,8,0] 2 1).1) :=
  ⟨Nat.zero_lt_one, spec_C1_scan_recurrence [4,0,0,0,0,0,8,0] 2 1 Nat.zero_lt_one⟩

/-- Claim C3 (amended), witness: the statement instantiated at the concrete
scan of [5,1,5,0,0]. -/
theorem spec_C3_witness :
    numcrossOf [5,1,5] 2 =
      (risingEdges (maskAbove [5,1,5] 2) : ℤ) -
        (fallingEdges (maskAbove [5,1,5] 2) : ℤ) ∧
    ∃ j, (2:ℚ) < ((([5,1,5,0,0] : List ℚ).drop j).take 3).headD 0 ∧
      (0:ℤ) = numcrossOf ((([5,1,5,0,0] : List ℚ).drop j).take 3) 2 :=
  ⟨(spec_C3_crossing_count [5,1,5,0,0] 2 3).1 [5,1,5],
   (spec_C3_crossing_count [5,1,5,0,0] 2 3).2 0 (by
      rw [show scanQ ([5,1,5,0,0] : List ℚ) 2 3 = ([0], [0], [17]) from by
        norm_num [scanQ, scanAux, argmaxFirst, numcrossOf, maskAbove, npDiff,
          sum_squared]]
      exact List.mem_singleton.mpr rfl)⟩

/-- Claim C5, counterexample: at sampling rate 100.7 and tstart 0.9 the
source computes init = int(100.7) = 100 and startOffset = int(90.63) = 90,
while round would give 101 and 91. -/
theorem spec_C5_counterexample :
    initOf (1007/10) = 100 ∧ pyRound (1007/10) = 101 ∧
    startOffsetOf (1007/10) (9/10) = 90 ∧
    pyRound ((1007/10) * (9/10)) = 91 ∧
    ¬(initOf (1007/10) = pyRound (1007/10) ∧
      startOffsetOf (1007/10) (9/10) = pyRound ((1007/10) * (9/10))) := by
  have h1 : initOf (1007/10) = 100 := by
    rw [initOf, pyTrunc]
    norm_num
  have h2 : pyRound ((1007:ℚ)/10) = 101 := by
    rw [pyRound, show (⌊(1007:ℚ)/10⌋:ℤ) = 100 from by norm_num,
      show (⌈(1007:ℚ)/10⌉:ℤ) = 101 from by
        rw [Int.ceil_eq_iff]
        constructor <;> norm_num]
    norm_num
  have h3 : startOffsetOf (1007/10) (9/10) = 90 := by
    rw [startOffsetOf, show ((1007:ℚ)/10 * (9/10)) = 9063/100 by norm_num, pyTrunc]
    norm_num
  have h4 : pyRound ((1007:ℚ)/10 * (9/10)) = 91 := by
    rw [show ((1007:ℚ)/10 * (9/10)) = 9063/100 by norm_num, pyRound,
      show (⌊(9063:ℚ)/100⌋:ℤ) = 90 from by norm_num,
      show (⌈(9063:ℚ)/100⌉:ℤ) = 91 from by
        rw [Int.ceil_eq_iff]
        constructor <;> norm_num]
    norm_num
  refine ⟨h1, h2, h3, h4, ?_⟩
  rw [h1, h2]
  simp

/-- Claim C5 (amended), witness at sampling rate 100.7 and tstart 0.9. -/
theorem spec_C5_witness :
    (winSizeOf (1007/10) : ℤ) = pyRound (60 * (1007/10) / 120) ∧
    initOf (1007/10) = ⌊(1007:ℚ)/10⌋ ∧
    startOffsetOf (1007/10) (9/10) = ⌊(1007:ℚ)/10 * (9/10)⌋ ∧
    trimmedAbs [1,2] (1007/10) (9/10) =
      (([1,2] : List ℚ).map (fun x => |x|)).drop
        (startOffsetOf (1007/10) (9/10)).toNat :=
  spec_C5_initialization (1007/10) (9/10) [1,2] (by norm_num) (by norm_num)

/-- Claim C6, witness: the error branch taken at the string "foo". -/
theorem spec_C6_witness :
    threshRuns (.str "auto") =
      .ok [3/10, 7/20, 2/5, 9/20, 1/2, 11/20, 3/5, 13/20, 7/10, 3/4, 4/5,
        17/20, 9/10, 19/20, 1, 21/20] ∧
    threshRuns (.num (1/2)) = .ok [1/2] ∧
    qrsDetector 2 [0,0,0,0,0,0,0,0] (.str "foo") (5/2) 3 0 =
      .error "threshold value must be auto or a float" :=
  spec_C6_threshold_config "foo" (1/2) 2 (5/2) 0 3 [0,0,0,0,0,0,0,0]
    (by decide)

/-- Claim C8, witness: window(60) = (-0.35, 0.5) and
window(80) = (-0.3625, 0.475). -/
theorem spec_C8_witness :
    ecgSegmentWindow 60 = (-(7/20), 1/2) ∧
    ecgSegmentWindow 80 = (-(29/80), 19/40) := by
  constructor
  · rw [spec_C8_heartbeat_window 60 (by norm_num)]
    norm_num
  · rw [spec_C8_heartbeat_window 80 (by norm_num)]
    norm_num

/-- Claim C9, counterexample: on an all-zero signal no peak is found, the
sentinel gives time and rms length 1 while numcross stays empty, so the
three sequences do not all have equal length. -/
theorem spec_C9_counterexample :
    (runCandidateQ [0,0,0,0,0] 0 1).1.length = 1 ∧
    (runCandidateQ [0,0,0,0,0] 0 1).2.1.length = 0 ∧
    (rmsOf (runCandidateQ [0,0,0,0,0] 0 1).2.2).length = 1 ∧
    (runCandidateQ [0,0,0,0,0] 0 1).2.1.length ≠
      (runCandidateQ [0,0,0,0,0] 0 1).1.length := by
  have hrc : runCandidateQ ([0,0,0,0,0] : List ℚ) 0 1 = ([0], [], [0]) := by
    rw [runCandidateQ_sentinel _ _ _ (by norm_num [scanQ, scanAux])]
  rw [hrc, rmsOf_length]
  refine ⟨rfl, rfl, rfl, by decide⟩

/-- Claim C9 (amended), witness: equal lengths on a peakful scan and the
sentinel shape on a peakless scan. -/
theorem spec_C9_witness :
    ((runCandidateQ [4,0,0,0,0,0,8,0] 2 1).1.length =
        (rmsOf (runCandidateQ [4,0,0,0,0,0,8,0] 2 1).2.2).length ∧
      (runCandidateQ [4,0,0,0,0,0,8,0] 2 1).2.1.length =
        (rmsOf (runCandidateQ [4,0,0,0,0,0,8,0] 2 1).2.2).length) ∧
    ((runCandidateQ [0,0,0,0,0] 0 1).1 = [0] ∧
      (runCandidateQ [0,0,0,0,0] 0 1).2.1 = [] ∧
      rmsOf (runCandidateQ [0,0,0,0,0] 0 1).2.2 = [0]) :=
  ⟨(spec_C9_sequence_lengths [4,0,0,0,0,0,8,0] 2 1).1 (by
      rw [show scanQ ([4,0,0,0,0,0,8,0] : List ℚ) 2 1 = ([0,6], [0,0], [16,64])
        from by norm_num [scanQ, scanAux, argmaxFirst, numcrossOf, maskAbove,
          npDiff, sum_squared]]
      decide),
   (spec_C9_sequence_lengths [0,0,0,0,0] 0 1).2 (by
      rw [show scanQ ([0,0,0,0,0] : List ℚ) 0 1 = ([], [], [])
        from by norm_num [scanQ, scanAux]])⟩

/-- Claim C10, witness at the all-zero signal. -/
theorem spec_C10_witness :
    candidateEvents ([0,0,0,0,0] : List ℚ) 0 1 (5/2) 3 0 = [] ∧
      npMeanR (rmsOf [0]) + npStdR (rmsOf [0]) * ((5/2 : ℚ) : ℝ) = 0 ∧
      ratesOf [candidateEvents ([0,0,0,0,0] : List ℚ) 0 1 (5/2) 3 0] 5 2 = [0] :=
  spec_C10_sentinel_removed [0,0,0,0,0] 0 1 (5/2) 3 0 5 2 (by
    rw [show scanQ ([0,0,0,0,0] : List ℚ) 0 1 = ([], [], [])
      from by norm_num [scanQ, scanAux]])

/-- Claim C2, witness at the all-zero signal with a single numeric
threshold candidate. -/
theorem spec_C2_witness :
    qrsDetector 2 [0,0,0,0,0,0,0,0] (.num (1/2)) (5/2) 3 0 = .ok [] ∧
    (∃ runs, threshRuns (.num (1/2)) = .ok runs ∧
      (let cands := candList 2 [0,0,0,0,0,0,0,0] runs (5/2) 3 0
       let rates := ratesOf cands ([0,0,0,0,0,0,0,0] : List ℚ).length 2
       let ideal := if ∃ r ∈ rates, 40 ≤ r ∧ r ≤ 160
         then npMedian (rates.filter (fun r => decide (40 ≤ r ∧ r ≤ 160))) else 80
       ∃ i, i < cands.length ∧ ([] : List ℕ) = cands.getD i [] ∧
         (∀ j, j < rates.length →
           |rates.getD i 0 - ideal| ≤ |rates.getD j 0 - ideal|) ∧
         (∀ j, j < i → |rates.getD i 0 - ideal| < |rates.getD j 0 - ideal|))) :=
  ⟨qrs_zero_eval,
   spec_C2_best_candidate 2 [0,0,0,0,0,0,0,0] (.num (1/2)) (5/2) 3 0 []
     qrs_zero_eval⟩

/-- Claim C7, witness: the whole-signal segment [0,8) on the all-zero
signal. -/
theorem spec_C7_witness :
    findEcgEvents 2 [0,0,0,0,0,0,0,0] [0] [8] 999 10 (.num (1/2)) (5/2) 3 0 =
      .ok (([] : List ℕ).map (fun t =>
        (((remapOf [0] [8]).getD t 0 : ℤ) + 10, 0, 999))) ∧
    List.Chain' (· < ·)
      (([] : List ℕ).map (fun t => ((remapOf [0] [8]).getD t 0 : ℤ) + 10)) :=
  spec_C7_event_table 2 [0,0,0,0,0,0,0,0] [0] [8] 999 10 (.num (1/2)) (5/2) 3 0
    [] ⟨List.chain'_singleton _, by decide⟩ (by decide)
    (by rw [winSize_two]; exact Nat.zero_lt_one) qrs_zero_eval

end EcgModel
